import Mathlib

/-!
Verification of the apca_balancer allocation-planning core and funding
scheduler.  Floating-point (`f64`) values are modelled as exact rationals
(`ℚ`); `f64::INFINITY` (used only as the initial accumulator of
`min_by_key_f64`) is modelled as `⊤ : WithTop ℚ`.  The unbounded
`(0..).try_fold` loop of `generate_orders` is modelled with an explicit
fuel parameter (`gen_loop`); termination claims state that a specific
fuel suffices.  Vector indexing (`nth(idx).unwrap()`, `v[idx] += x`) is
modelled totally with `List.getD` / `List.set`.
-/

/-- Embeds `mean` (src/main.rs:18): fold computing count and sum, returning
`sum / count` when the count is positive. -/
def mean (x : List ℚ) : Option ℚ :=
  let r := x.foldl (fun (acc : ℕ × ℚ) v => (acc.1 + 1, acc.2 + v)) (0, 0)
  if 0 < r.1 then some (r.2 / (r.1 : ℚ)) else none

/-- Embeds `error` (src/main.rs:28): mean of squared element-wise
differences of the zipped sequences. -/
def error (stock_fractions ideal_fractions : List ℚ) : Option ℚ :=
  mean (((stock_fractions.zip ideal_fractions).map (fun v => v.1 - v.2)).map
    (fun v => v * v))

/-- Embeds `min_by_key_f64` (src/main.rs:66): fold with accumulator
`(f64::INFINITY, None)`; a strictly smaller key replaces the accumulator,
so the first element attaining the minimal key wins ties. -/
def min_by_key_f64 {B : Type} (x : List B) (key : B → ℚ) : Option B :=
  (x.foldl
      (fun (acc : WithTop ℚ × Option B) item =>
        let k : WithTop ℚ := ((key item : ℚ) : WithTop ℚ)
        if k < acc.1 then (k, some item) else acc)
      ((⊤ : WithTop ℚ), none)).2

/-- The hypothetical post-purchase fraction vector built inside
`best_asset_to_fund` (src/main.rs:53-57): `equities[i]` increased by `p`,
every entry divided by `sum equities + p`.  (The source caches
`total_stock_equity = sum` before the closure; `E.sum` is that value.) -/
def hyp_fractions (E : List ℚ) (i : ℕ) (p : ℚ) : List ℚ :=
  (E.enum.map (fun se => if se.1 ≠ i then se.2 else se.2 + p)).map
    (fun se => se / (E.sum + p))

/-- The candidate iterator of `best_asset_to_fund` (src/main.rs:49-61):
affordable indices paired with the error of the hypothetical post-purchase
fractions, candidates with undefined error skipped (`filter_map` + `?`). -/
def sel_candidates (E P F : List ℚ) (b : ℚ) : List (ℕ × ℚ) :=
  (P.enum.filter (fun ip => decide (ip.2 ≤ b))).filterMap (fun ip =>
    (error (hyp_fractions E ip.1 ip.2) F).map (fun err => (ip.1, err)))

/-- Embeds `best_asset_to_fund` (src/main.rs:40): minimum of the candidate
list by the error component. -/
def best_asset_to_fund (E P F : List ℚ) (b : ℚ) : Option (ℕ × ℚ) :=
  min_by_key_f64 (sel_candidates E P F b) (fun x => x.2)

/-- The loop state of `generate_orders`: `(orders, stock_equities, max_fund)`. -/
abbrev PlanState := List (ℕ × ℚ) × List ℚ × ℚ

/-- One iteration of the `try_fold` loop in `generate_orders`
(src/main.rs:89-114).  `Sum.inl` is `ControlFlow::Continue`, `Sum.inr` is
`ControlFlow::Break`. -/
def gen_step (P F : List ℚ) (st : PlanState) : PlanState ⊕ PlanState :=
  let orders := st.1
  let stock_equities := st.2.1
  let max_fund := st.2.2
  if P.any (fun p => decide (p ≤ max_fund)) then
    match best_asset_to_fund stock_equities P F max_fund with
    | some (idx, _err) =>
        let order_amount := P.getD idx 0
        Sum.inl (orders ++ [(idx, order_amount)],
          stock_equities.set idx (stock_equities.getD idx 0 + order_amount),
          max_fund - order_amount)
    | none => Sum.inr (orders, stock_equities, max_fund)
  else
    Sum.inr (orders, stock_equities, max_fund)

/-- The `(0..).try_fold` loop of `generate_orders`, with explicit fuel:
`none` means the loop did not break within the given number of
iterations. -/
def gen_loop (P F : List ℚ) : ℕ → PlanState → Option PlanState
  | 0, _ => none
  | n + 1, st =>
      match gen_step P F st with
      | Sum.inl st2 => gen_loop P F n st2
      | Sum.inr st2 => some st2

/-- Embeds `generate_orders` (src/main.rs:80): run the loop from
`(vec![], stock_equities, max_fund)` and return the orders and final
equities of the break state. -/
def generate_orders (E P F : List ℚ) (max_fund : ℚ) (fuel : ℕ) :
    Option (List (ℕ × ℚ) × List ℚ) :=
  (gen_loop P F fuel ([], E, max_fund)).map (fun st => (st.1, st.2.1))

/-- Total dollar amount of a plan. -/
def planSum (orders : List (ℕ × ℚ)) : ℚ := (orders.map Prod.snd).sum

/-- `min_by_key_f64` coincides with Mathlib's `List.argmin`: both keep the
first element attaining the strictly smallest key. -/
theorem min_by_key_f64_eq_argmin {B : Type} (l : List B) (key : B → ℚ) :
    min_by_key_f64 l key = l.argmin key := by
  have aux : ∀ (t : List B) (b : B),
      (t.foldl
          (fun (acc : WithTop ℚ × Option B) item =>
            let k : WithTop ℚ := ((key item : ℚ) : WithTop ℚ)
            if k < acc.1 then (k, some item) else acc)
          (((key b : ℚ) : WithTop ℚ), some b)).2
        = t.foldl (List.argAux fun x y => key x < key y) (some b) := by
    intro t
    induction t with
    | nil => intro b; rfl
    | cons a t ih =>
        intro b
        simp only [List.foldl_cons, List.argAux]
        by_cases h : key a < key b
        · rw [if_pos (by exact_mod_cast h), if_pos h]
          exact ih a
        · rw [if_neg (by exact_mod_cast h), if_neg h]
          exact ih b
  cases l with
  | nil => rfl
  | cons a t =>
      have h1 : min_by_key_f64 (a :: t) key =
          (t.foldl
              (fun (acc : WithTop ℚ × Option B) item =>
                let k : WithTop ℚ := ((key item : ℚ) : WithTop ℚ)
                if k < acc.1 then (k, some item) else acc)
              (((key a : ℚ) : WithTop ℚ), some a)).2 := by
        simp only [min_by_key_f64, List.foldl_cons]
        rw [if_pos (WithTop.coe_lt_top (key a))]
      rw [h1, aux t a]
      rfl

/-- Unpacking membership in the candidate list: a candidate `(i, e)` comes
from an affordable price `P[i] = p` with defined error `e`. -/
theorem mem_sel_candidates {E P F : List ℚ} {b : ℚ} {i : ℕ} {e : ℚ}
    (h : (i, e) ∈ sel_candidates E P F b) :
    ∃ p, P[i]? = some p ∧ p ≤ b ∧ error (hyp_fractions E i p) F = some e := by
  simp only [sel_candidates, List.mem_filterMap, List.mem_filter,
    Option.map_eq_some', decide_eq_true_eq] at h
  obtain ⟨ip, ⟨hip, hle⟩, e0, herr, heq⟩ := h
  rw [List.mem_enum_iff_getElem?] at hip
  obtain ⟨rfl, rfl⟩ := Prod.mk.inj heq
  exact ⟨ip.2, hip, hle, herr⟩

/-- A successful selection points at an affordable price: if
`best_asset_to_fund` returns `(i, e)` then `P[i]` exists, is `≤ b`, and
`e` is the error of the hypothetical post-purchase fractions. -/
theorem best_asset_to_fund_some {E P F : List ℚ} {b : ℚ} {i : ℕ} {e : ℚ}
    (h : best_asset_to_fund E P F b = some (i, e)) :
    ∃ p, P[i]? = some p ∧ p ≤ b ∧ error (hyp_fractions E i p) F = some e := by
  have hmem : (i, e) ∈ sel_candidates E P F b := by
    rw [best_asset_to_fund,
      min_by_key_f64_eq_argmin (sel_candidates E P F b) (fun x => x.2)] at h
    exact List.argmin_mem h
  exact mem_sel_candidates hmem

/-- A `Break` of the loop body returns the state unchanged. -/
theorem gen_step_inr_eq {P F : List ℚ} {st st2 : PlanState}
    (h : gen_step P F st = Sum.inr st2) : st2 = st := by
  obtain ⟨orders, eqs, mf⟩ := st
  by_cases hany : P.any (fun p => decide (p ≤ mf))
  · rcases hbest : best_asset_to_fund eqs P F mf with _ | ⟨idx, err⟩
    · simp only [gen_step, hany, if_true, hbest] at h
      exact (Sum.inr.inj h).symm
    · simp [gen_step, hany, hbest] at h
  · simp only [gen_step, hany, Bool.false_eq_true, if_false] at h
    exact (Sum.inr.inj h).symm

/-- A `Continue` of the loop body appends one order `(i, P[i])` for a
selected, affordable index `i`, credits `P[i]` to `equities[i]`, and
subtracts `P[i]` from the remaining budget. -/
theorem gen_step_inl_eq {P F : List ℚ} {orders : List (ℕ × ℚ)} {eqs : List ℚ}
    {mf : ℚ} {st2 : PlanState}
    (h : gen_step P F (orders, eqs, mf) = Sum.inl st2) :
    ∃ i e p, best_asset_to_fund eqs P F mf = some (i, e) ∧
      P[i]? = some p ∧ p ≤ mf ∧
      st2 = (orders ++ [(i, p)], eqs.set i (eqs.getD i 0 + p), mf - p) := by
  by_cases hany : P.any (fun p => decide (p ≤ mf))
  · rcases hbest : best_asset_to_fund eqs P F mf with _ | ⟨idx, err⟩
    · simp [gen_step, hany, hbest] at h
    · obtain ⟨p, hp, hpb, _⟩ := best_asset_to_fund_some hbest
      have hgd : P.getD idx 0 = p := by
        rw [List.getD_eq_getElem?_getD, hp]; rfl
      refine ⟨idx, err, p, rfl, hp, hpb, ?_⟩
      simp only [gen_step, hany, if_true, hbest, hgd] at h
      exact (Sum.inl.inj h).symm
  · simp [gen_step, hany] at h

/-- Any property preserved by `Continue` steps holds for the state the
loop breaks with. -/
theorem gen_loop_inv {P F : List ℚ} {Q : PlanState → Prop}
    (hstep : ∀ st st2, Q st → gen_step P F st = Sum.inl st2 → Q st2) :
    ∀ (n : ℕ) (st st2 : PlanState), Q st → gen_loop P F n st = some st2 → Q st2 := by
  intro n
  induction n with
  | zero => intro st st2 _ h; simp [gen_loop] at h
  | succ n ih =>
      intro st st2 hQ h
      rw [gen_loop] at h
      cases hg : gen_step P F st with
      | inl st1 =>
          rw [hg] at h
          exact ih st1 st2 (hstep st st1 hQ hg) h
      | inr st1 =>
          rw [hg] at h
          have h2 : st1 = st2 := Option.some.inj h
          rw [← h2, gen_step_inr_eq hg]
          exact hQ

/-- `List.indexOf` on pairs does not depend on which (lawful) `BEq`
instance is used. -/
theorem indexOf_deq_eq (a : ℕ × ℚ) (l : List (ℕ × ℚ)) :
    @List.indexOf _ instBEqOfDecidableEq a l = l.indexOf a := by
  unfold List.indexOf
  congr 1
  funext x
  by_cases h : x = a <;> simp [instBEqOfDecidableEq, h]

/-- C1: `AssetSelector` considers exactly the indices with `P[i] ≤ b`
(the `sel_candidates` list); any selection is a candidate whose error is
the smallest among all candidates, the first-encountered candidate
winning ties (`indexOf` minimality); and it returns no selection exactly
when every affordable index has undefined `ErrorMetric` (in particular
when no index is affordable). -/
theorem best_asset_to_fund_spec (E P F : List ℚ) (b : ℚ) :
    (∀ i e, best_asset_to_fund E P F b = some (i, e) →
        (i, e) ∈ sel_candidates E P F b ∧
        (∀ c ∈ sel_candidates E P F b, e ≤ c.2) ∧
        (∀ c ∈ sel_candidates E P F b, c.2 ≤ e →
          (sel_candidates E P F b).indexOf (i, e) ≤
            (sel_candidates E P F b).indexOf c)) ∧
    (best_asset_to_fund E P F b = none ↔
      ∀ ip ∈ P.enum, ip.2 ≤ b → error (hyp_fractions E ip.1 ip.2) F = none) := by
  constructor
  · intro i e h
    rw [best_asset_to_fund,
      min_by_key_f64_eq_argmin (sel_candidates E P F b) (fun x => x.2)] at h
    have h3 := List.mem_argmin_iff.mp (show (i, e) ∈ _ from h)
    refine ⟨h3.1, h3.2.1, ?_⟩
    intro c hc hce
    have h4 := h3.2.2 c hc hce
    rwa [indexOf_deq_eq, indexOf_deq_eq] at h4
  · rw [best_asset_to_fund,
      min_by_key_f64_eq_argmin (sel_candidates E P F b) (fun x => x.2),
      List.argmin_eq_none, sel_candidates, List.filterMap_eq_nil_iff]
    constructor
    · intro h ip hip hle
      have h2 := h ip (List.mem_filter.mpr ⟨hip, by simpa using hle⟩)
      simpa using h2
    · intro h ip hip
      rw [List.mem_filter] at hip
      have hle : ip.2 ≤ b := by simpa using hip.2
      simp [h ip hip.1 hle]

/-- Witness for C1 at `E = [1]`, `P = [1]`, `F = [1/2]`, `b = 2`, where the
selection is `(0, 1/4)`. -/
theorem best_asset_to_fund_spec_witness :
    (0, (1 : ℚ)/4) ∈ sel_candidates [1] [1] [1/2] 2 ∧
    (∀ c ∈ sel_candidates [1] [1] [1/2] 2, (1 : ℚ)/4 ≤ c.2) ∧
    (∀ c ∈ sel_candidates [1] [1] [1/2] 2, c.2 ≤ (1 : ℚ)/4 →
      (sel_candidates [1] [1] [1/2] 2).indexOf (0, (1 : ℚ)/4) ≤
        (sel_candidates [1] [1] [1/2] 2).indexOf c) :=
  (best_asset_to_fund_spec [1] [1] [1/2] 2).1 0 (1/4) (by
    norm_num [best_asset_to_fund, min_by_key_f64, sel_candidates, hyp_fractions,
      error, mean, List.enum, List.enumFrom, List.filterMap_cons,
      List.filter_cons, WithTop.coe_lt_top])

/-- C4 counterexample: at `E = [1]`, `P = [1]`, `F = [1/2]`, `b = 2` the
selector returns `(0, 1/4)`, but the price of asset `0` is `1`; the second
component of the returned pair is not the price spent. -/
theorem best_asset_to_fund_snd_not_price :
    best_asset_to_fund [1] [1] [1/2] 2 = some (0, 1/4) ∧
    ((1 : ℚ)/4) ≠ ([(1 : ℚ)].getD 0 0) := by
  constructor
  · norm_num [best_asset_to_fund, min_by_key_f64, sel_candidates, hyp_fractions,
      error, mean, List.enum, List.enumFrom, List.filterMap_cons,
      List.filter_cons, WithTop.coe_lt_top]
  · norm_num

/-- C4 amended: the pair returned by `best_asset_to_fund` is
`(selected_index, error_value)`: the second component is the `ErrorMetric`
value of the selected candidate, not the price (the caller
`generate_orders` looks the price up itself, see `gen_step_inl_eq`). -/
theorem best_asset_to_fund_snd_is_error (E P F : List ℚ) (b : ℚ) (i : ℕ) (e : ℚ)
    (h : best_asset_to_fund E P F b = some (i, e)) :
    ∃ p, P[i]? = some p ∧ p ≤ b ∧ error (hyp_fractions E i p) F = some e :=
  best_asset_to_fund_some h

/-- Witness for the amended C4 at `E = [1]`, `P = [1]`, `F = [1/2]`, `b = 2`. -/
theorem best_asset_to_fund_snd_is_error_witness :
    ∃ p, ([(1 : ℚ)])[0]? = some p ∧ p ≤ 2 ∧
      error (hyp_fractions [1] 0 p) [1/2] = some (1/4) :=
  best_asset_to_fund_snd_is_error [1] [1] [1/2] 2 0 (1/4) (by
    norm_num [best_asset_to_fund, min_by_key_f64, sel_candidates, hyp_fractions,
      error, mean, List.enum, List.enumFrom, List.filterMap_cons,
      List.filter_cons, WithTop.coe_lt_top])

/-- Appending one order adds its amount to the plan total. -/
theorem planSum_append (l : List (ℕ × ℚ)) (x : ℕ × ℚ) :
    planSum (l ++ [x]) = planSum l + x.2 := by
  simp [planSum]

/-- A price delivered by `P[i]? = some p` is a member of `P`. -/
theorem price_mem {P : List ℚ} {i : ℕ} {p : ℚ} (hp : P[i]? = some p) : p ∈ P := by
  rw [List.getElem?_eq_some] at hp
  obtain ⟨hi, rfl⟩ := hp
  exact List.getElem_mem hi

/-- C2: with a nonnegative budget and strictly positive prices, every plan
entry chosen by the loop has a positive dollar amount that is at most the
budget remaining when it was chosen, and the total of the plan never
exceeds the initial budget. -/
theorem generate_orders_budget (E P F : List ℚ) (b : ℚ) (hb : 0 ≤ b)
    (hP : ∀ p ∈ P, 0 < p) (n : ℕ) (plan : List (ℕ × ℚ)) (eqs : List ℚ)
    (rem : ℚ) (h : gen_loop P F n ([], E, b) = some (plan, eqs, rem)) :
    (∀ (k : ℕ) (hk : k < plan.length),
        0 < (plan.get ⟨k, hk⟩).2 ∧
        (plan.get ⟨k, hk⟩).2 ≤ b - planSum (plan.take k)) ∧
    planSum plan ≤ b := by
  have hinv := gen_loop_inv (P := P) (F := F)
    (Q := fun st =>
      st.2.2 = b - planSum st.1 ∧ 0 ≤ st.2.2 ∧
        ∀ (k : ℕ) (hk : k < st.1.length),
          0 < (st.1.get ⟨k, hk⟩).2 ∧
          (st.1.get ⟨k, hk⟩).2 ≤ b - planSum (st.1.take k))
    (by
      intro st st2 hQ hg
      obtain ⟨orders, eqs0, mf⟩ := st
      obtain ⟨i, e, p, hbest, hp, hpb, rfl⟩ := gen_step_inl_eq hg
      obtain ⟨hrem, hnn, hentries⟩ := hQ
      have hppos : 0 < p := hP p (price_mem hp)
      refine ⟨?_, ?_, ?_⟩
      · simp only [planSum_append]
        simp only at hrem
        rw [hrem]; ring
      · simp only at hpb hnn ⊢
        linarith
      · intro k hk
        simp only [List.length_append, List.length_singleton] at hk
        simp only [List.get_eq_getElem] at hentries ⊢
        rcases Nat.lt_or_ge k orders.length with hk2 | hk2
        · rw [List.getElem_append_left hk2,
            List.take_append_eq_append_take, Nat.sub_eq_zero_of_le hk2.le]
          simpa using hentries k hk2
        · have hkeq : k = orders.length := by omega
          subst hkeq
          have hget : (orders ++ [(i, p)]).get ⟨orders.length, by simp⟩ = (i, p) := by
            simp
          rw [List.get_eq_getElem] at hget
          have htake : List.take orders.length (orders ++ [(i, p)]) = orders := by
            rw [List.take_append_eq_append_take, Nat.sub_self, List.take_length]
            simp
          rw [hget, htake]
          simp only at hrem hpb
          exact ⟨hppos, by rw [← hrem]; exact hpb⟩)
    n ([], E, b) (plan, eqs, rem)
    (by refine ⟨by simp [planSum], hb, ?_⟩; intro k hk; simp at hk) h
  obtain ⟨hrem, hnn, hentries⟩ := hinv
  refine ⟨hentries, ?_⟩
  simp only at hrem hnn
  linarith

/-- Witness for C2 on `E = [0, 100]`, `P = [10, 10]`, `F = [1/2, 1/2]`,
`b = 25`, where the loop breaks with plan `[(0, 10), (0, 10)]`. -/
theorem generate_orders_budget_witness :
    (∀ (k : ℕ) (hk : k < ([(0, 10), (0, 10)] : List (ℕ × ℚ)).length),
        0 < (([(0, 10), (0, 10)] : List (ℕ × ℚ)).get ⟨k, hk⟩).2 ∧
        (([(0, 10), (0, 10)] : List (ℕ × ℚ)).get ⟨k, hk⟩).2 ≤
          25 - planSum (([(0, 10), (0, 10)] : List (ℕ × ℚ)).take k)) ∧
    planSum [(0, 10), (0, 10)] ≤ 25 :=
  generate_orders_budget [0, 100] [10, 10] [1/2, 1/2] 25 (by norm_num)
    (by norm_num) 3 [(0, 10), (0, 10)] [20, 100] 5 (by
      norm_num [gen_loop, gen_step, best_asset_to_fund, min_by_key_f64,
        sel_candidates, hyp_fractions, error, mean, List.enum, List.enumFrom,
        List.filterMap_cons, List.filter_cons, WithTop.coe_lt_top])

/-- C10 (amended with `P.length ≤ E.length`): the returned equities vector
keeps the initial length, every plan index is valid for it, and each final
equity is the initial equity plus the planned amounts at that index. -/
theorem generate_orders_equities (E P F : List ℚ) (b : ℚ)
    (hlen : P.length ≤ E.length) (n : ℕ) (plan : List (ℕ × ℚ))
    (eqs : List ℚ) (rem : ℚ)
    (h : gen_loop P F n ([], E, b) = some (plan, eqs, rem)) :
    eqs.length = E.length ∧
    (∀ ia ∈ plan, ia.1 < eqs.length) ∧
    ∀ j, j < E.length →
      eqs.getD j 0 = E.getD j 0 +
        planSum (plan.filter (fun ia => decide (ia.1 = j))) := by
  have hinv := gen_loop_inv (P := P) (F := F)
    (Q := fun st =>
      st.2.1.length = E.length ∧ (∀ ia ∈ st.1, ia.1 < E.length) ∧
        ∀ j, j < E.length →
          st.2.1.getD j 0 = E.getD j 0 +
            planSum (st.1.filter (fun ia => decide (ia.1 = j))))
    (by
      intro st st2 hQ hg
      obtain ⟨orders, eqs0, mf⟩ := st
      obtain ⟨i, e, p, hbest, hp, hpb, rfl⟩ := gen_step_inl_eq hg
      obtain ⟨hlen0, hmem0, hval0⟩ := hQ
      simp only at hlen0 hmem0 hval0
      have hiP : i < P.length := by
        rw [List.getElem?_eq_some] at hp
        exact hp.1
      have hiE : i < E.length := lt_of_lt_of_le hiP hlen
      refine ⟨by simpa using hlen0, ?_, ?_⟩
      · intro ia hia
        rcases List.mem_append.mp hia with hia | hia
        · exact hmem0 ia hia
        · rw [List.mem_singleton] at hia
          subst hia
          exact hiE
      · intro j hj
        have hset : (eqs0.set i (eqs0.getD i 0 + p)).getD j 0 =
            if i = j then eqs0.getD i 0 + p else eqs0.getD j 0 := by
          rw [List.getD_eq_getElem?_getD, List.getElem?_set]
          rcases eq_or_ne i j with rfl | hne
          · rw [if_pos rfl, if_pos (by rw [hlen0]; exact hiE), if_pos rfl]
            rfl
          · rw [if_neg hne, if_neg hne, List.getD_eq_getElem?_getD]
        rw [List.filter_append, planSum, List.map_append, List.sum_append,
          ← planSum, ← planSum, hset]
        rcases eq_or_ne i j with rfl | hne
        · rw [if_pos rfl, hval0 i hj]
          simp [planSum]
          ring
        · rw [if_neg hne, hval0 j hj]
          simp [planSum, hne])
    n ([], E, b) (plan, eqs, rem)
    (by
      refine ⟨rfl, ?_, ?_⟩
      · intro ia hia; simp at hia
      · intro j hj; simp [planSum]) h
  obtain ⟨hlen1, hmem1, hval1⟩ := hinv
  simp only at hlen1 hmem1 hval1
  exact ⟨hlen1, fun ia hia => hlen1 ▸ hmem1 ia hia, hval1⟩

/-- C10 counterexample: with `E = [1]`, `P = [5, 1]`, `F = [1/2]`, `b = 2`
the loop breaks with plan `[(1, 1), (1, 1)]`, whose index `1` is not a
valid index into the length-1 equities vector.  (In the Rust source this
input panics at `new_stock_equities[idx] += …`; the total model records
the invalid index instead.) -/
theorem generate_orders_equities_cex :
    gen_loop [5, 1] [1/2] 3 ([], [1], 2) = some ([(1, 1), (1, 1)], [1], 0) ∧
    ¬ ((1 : ℕ) < ([(1 : ℚ)]).length) := by
  constructor
  · have h1 : ∀ x : ℚ, ([1] : List ℚ).set 1 x = [1] := fun x => rfl
    have h2 : ([5, 1] : List ℚ)[1] = 1 := rfl
    have h3 : (([1] : List ℚ))[1]?.getD 0 = 0 := rfl
    have h4 : ∀ x : ℚ, ([5, 1] : List ℚ)[1]?.getD x = 1 := fun x => rfl
    norm_num [gen_loop, gen_step, best_asset_to_fund, min_by_key_f64,
      sel_candidates, hyp_fractions, error, mean, List.enum, List.enumFrom,
      List.filterMap_cons, List.filter_cons, WithTop.coe_lt_top,
      h1, h2, h3, h4]
  · norm_num

/-- Witness for the amended C10 on `E = [100, 100]`, `P = [10, 20]`,
`F = [1/2, 1/2]`, `b = 10`, where the loop breaks with plan `[(0, 10)]`
and equities `[110, 100]`. -/
theorem generate_orders_equities_witness :
    ([110, 100] : List ℚ).length = ([100, 100] : List ℚ).length ∧
    (∀ ia ∈ ([(0, 10)] : List (ℕ × ℚ)), ia.1 < ([110, 100] : List ℚ).length) ∧
    ∀ j, j < ([100, 100] : List ℚ).length →
      ([110, 100] : List ℚ).getD j 0 = ([100, 100] : List ℚ).getD j 0 +
        planSum (([(0, 10)] : List (ℕ × ℚ)).filter (fun ia => decide (ia.1 = j))) :=
  generate_orders_equities [100, 100] [10, 20] [1/2, 1/2] 10 (by norm_num)
    2 [(0, 10)] [110, 100] 0 (by
      norm_num [gen_loop, gen_step, best_asset_to_fund, min_by_key_f64,
        sel_candidates, hyp_fractions, error, mean, List.enum, List.enumFrom,
        List.filterMap_cons, List.filter_cons, WithTop.coe_lt_top])

/-- With a positive lower bound `m` on the prices, each `Continue` step
deducts at least `m` from the budget, so fuel `⌈budget / m⌉ + 1` makes the
loop break. -/
theorem gen_loop_breaks {P F : List ℚ} {m : ℚ} (hmin : ∀ p ∈ P, m ≤ p)
    (hpos : 0 < m) :
    ∀ (n : ℕ) (st : PlanState), (⌈st.2.2 / m⌉).toNat < n →
      ∃ r, gen_loop P F n st = some r := by
  intro n
  induction n with
  | zero => intro st hst; omega
  | succ n ih =>
      intro st hst
      cases hg : gen_step P F st with
      | inr st2 => exact ⟨st2, by rw [gen_loop, hg]⟩
      | inl st2 =>
          obtain ⟨orders, eqs0, mf⟩ := st
          obtain ⟨i, e, p, hbest, hp, hpb, rfl⟩ := gen_step_inl_eq hg
          simp only at hst
          have hmp : m ≤ p := hmin p (price_mem hp)
          have hkey : (⌈(mf - p) / m⌉).toNat < n := by
            have h1 : (mf - p) / m ≤ (mf - m) / m :=
              (div_le_div_iff_of_pos_right hpos).mpr (by linarith)
            have h2 : (mf - m) / m = mf / m - 1 := by
              rw [sub_div, div_self hpos.ne']
            have h3 : ⌈(mf - p) / m⌉ ≤ ⌈mf / m⌉ - 1 := by
              rw [← Int.ceil_sub_one]
              exact Int.ceil_le_ceil (by rw [← h2]; exact h1)
            have h5 : (1 : ℚ) ≤ mf / m := (one_le_div hpos).mpr (by linarith)
            have h6 : (1 : ℤ) ≤ ⌈mf / m⌉ := by
              have h7 := Int.ceil_le_ceil h5
              rwa [Int.ceil_one] at h7
            omega
          obtain ⟨r, hr⟩ := ih (orders ++ [(i, p)],
            eqs0.set i (eqs0.getD i 0 + p), mf - p) hkey
          exact ⟨r, by rw [gen_loop, hg]; exact hr⟩

/-- C7: for a price vector containing its positive minimum `m`, the
`generate_orders` loop breaks within `⌈b / m⌉ + 1` iterations: each
iteration either breaks or deducts an amount at least `m` from the
remaining budget. -/
theorem generate_orders_terminates (E P F : List ℚ) (b m : ℚ) (hm : m ∈ P)
    (hmin : ∀ p ∈ P, m ≤ p) (hP : ∀ p ∈ P, 0 < p) :
    ∃ st, gen_loop P F ((⌈b / m⌉).toNat + 1) ([], E, b) = some st :=
  gen_loop_breaks hmin (hP m hm) _ ([], E, b) (Nat.lt_succ_self _)

/-- Witness for C7 at `E = [100, 100]`, `P = [10, 20]`, `F = [1/2, 1/2]`,
`b = 25`, `m = 10`. -/
theorem generate_orders_terminates_witness :
    ∃ st, gen_loop [10, 20] [1/2, 1/2] ((⌈(25 : ℚ) / 10⌉).toNat + 1)
      ([], [100, 100], 25) = some st :=
  generate_orders_terminates [100, 100] [10, 20] [1/2, 1/2] 25 10
    (by norm_num) (by norm_num) (by norm_num)

/-- C8 (amended with strictly positive prices): a zero budget makes the
very first iteration break, returning an empty plan and the equities
unchanged. -/
theorem generate_orders_zero_budget (E P F : List ℚ)
    (hP : ∀ p ∈ P, 0 < p) (n : ℕ) :
    gen_loop P F (n + 1) ([], E, 0) = some ([], E, 0) := by
  have hany : P.any (fun p => decide (p ≤ (0 : ℚ))) = false := by
    rw [List.any_eq_false]
    intro p hp
    simp only [decide_eq_true_eq]
    exact not_le.mpr (hP p hp)
  have hstep : gen_step P F ([], E, 0) = Sum.inr ([], E, 0) := by
    simp [gen_step, hany]
  rw [gen_loop, hstep]

/-- Witness for the amended C8 at `E = [7]`, `P = [3]`, `F = [1/2]`. -/
theorem generate_orders_zero_budget_witness :
    gen_loop [3] [1/2] 1 ([], [7], 0) = some ([], [7], 0) :=
  generate_orders_zero_budget [7] [3] [1/2] (by norm_num) 0

/-- With the nonpositive price `0` in the price list, the loop body keeps
appending the order `(0, 0)` without reducing the budget. -/
theorem zero_price_step (orders : List (ℕ × ℚ)) :
    gen_step [0] [1/2] (orders, [1], 0) = Sum.inl (orders ++ [(0, 0)], [1], 0) := by
  norm_num [gen_step, best_asset_to_fund, min_by_key_f64, sel_candidates,
    hyp_fractions, error, mean, List.enum, List.enumFrom, List.filterMap_cons,
    List.filter_cons, WithTop.coe_lt_top]

/-- The loop never breaks from the given state, whatever the fuel. -/
def gen_loop_diverges (P F : List ℚ) (st : PlanState) : Prop :=
  ∀ n, gen_loop P F n st = none

/-- Helper for the C8 counterexample: from any plan, the state with
equities `[1]` and budget `0` never breaks under prices `[0]`. -/
theorem zero_price_diverges_aux :
    ∀ (n : ℕ) (orders : List (ℕ × ℚ)),
      gen_loop [0] [1/2] n (orders, [1], 0) = none := by
  intro n
  induction n with
  | zero => intro orders; rfl
  | succ n ih =>
      intro orders
      rw [gen_loop, zero_price_step]
      exact ih _

/-- C8 counterexample: with `E = [1]`, `P = [0]`, `F = [1/2]` and budget
`0`, the loop never returns at all (no fuel makes it break), and its first
iteration already appends the order `(0, 0)`, so no empty plan is
returned.  (The Rust source loops forever on this input.) -/
theorem generate_orders_zero_budget_cex :
    gen_loop_diverges [0] [1/2] ([], [1], 0) ∧
    gen_step [0] [1/2] ([], [1], 0) = Sum.inl ([(0, 0)], [1], 0) := by
  constructor
  · intro n
    exact zero_price_diverges_aux n []
  · have h := zero_price_step []
    simpa using h

/-- Embeds the daily-funding computation of the scheduler
(src/main.rs:264-270): `total_invested = equity - cash`,
`total_additional_funding = equity * target_ratio - total_invested`,
`daily_funding = max(additional / days_until_finished, 0)`. -/
def daily_funding (equity cash target_ratio : ℚ) (days_until_finished : ℤ) : ℚ :=
  let total_invested := equity - cash
  let total_additional_funding := equity * target_ratio - total_invested
  max (total_additional_funding / (days_until_finished : ℚ)) 0

/-- Embeds the funding-today computation (src/main.rs:278-285):
`daily_funding * days_since_last_funding` when a last funding date exists,
plain `daily_funding` (one day's worth) on the first cycle. -/
def funding_today (equity cash target_ratio : ℚ) (days_until_finished : ℤ)
    (days_since_last_funding : Option ℤ) : ℚ :=
  match days_since_last_funding with
  | some d => daily_funding equity cash target_ratio days_until_finished * (d : ℚ)
  | none => daily_funding equity cash target_ratio days_until_finished

/-- Embeds the scheduler tick up to its `assert!`s (src/main.rs:264-287):
the three asserts (`days_until_finished > 0`, `daily_funding >= 0.0`,
`buying_power >= daily_funding`) abort the process (`Except.error`) before
any funding occurs; otherwise the tick yields today's funding amount. -/
def scheduler_tick (equity cash buying_power target_ratio : ℚ)
    (days_until_finished : ℤ) (days_since_last_funding : Option ℤ) :
    Except String ℚ :=
  let daily := daily_funding equity cash target_ratio days_until_finished
  if 0 < days_until_finished then
    if 0 ≤ daily then
      if daily ≤ buying_power then
        Except.ok (funding_today equity cash target_ratio days_until_finished
          days_since_last_funding)
      else Except.error "buying_power >= daily_funding"
    else Except.error "daily_funding >= 0.0"
  else Except.error "days_until_finished > 0"

/-- C3: with positive whole days remaining, the funding amount equals
`max(0, (equity * ratio - (equity - cash)) / days_remaining) * days_elapsed`
with `days_elapsed = 1` when there is no last funding date; in particular
the spec scenarios: ratio 1, equity 1000, cash 1000, 100 days out give
funding 10 when never funded and 50 when last funded 5 whole days ago. -/
theorem funding_today_spec (equity cash target_ratio : ℚ)
    (days_until_finished : ℤ) (days_since_last_funding : Option ℤ)
    (h : 0 < days_until_finished) :
    funding_today equity cash target_ratio days_until_finished
        days_since_last_funding =
      max 0 ((equity * target_ratio - (equity - cash)) /
          (days_until_finished : ℚ)) *
        (match days_since_last_funding with
          | some d => (d : ℚ)
          | none => 1) ∧
    funding_today 1000 1000 1 100 none = 10 ∧
    funding_today 1000 1000 1 100 (some 5) = 50 := by
  refine ⟨?_, ?_, ?_⟩
  · cases days_since_last_funding with
    | none => simp [funding_today, daily_funding, max_comm]
    | some d => simp [funding_today, daily_funding, max_comm]
  · norm_num [funding_today, daily_funding]
  · norm_num [funding_today, daily_funding]

/-- Witness for C3 at equity 1000, cash 1000, ratio 1, 100 days out,
last funded 5 days ago. -/
theorem funding_today_spec_witness :
    funding_today 1000 1000 1 100 (some 5) =
      max 0 ((1000 * 1 - (1000 - 1000)) / ((100 : ℤ) : ℚ)) *
        (match (some 5 : Option ℤ) with
          | some d => (d : ℚ)
          | none => 1) ∧
    funding_today 1000 1000 1 100 none = 10 ∧
    funding_today 1000 1000 1 100 (some 5) = 50 :=
  funding_today_spec 1000 1000 1 100 (some 5) (by norm_num)

/-- C6: when the current date has reached or passed the finish date (the
whole-day difference is nonpositive) the tick rejects the cycle instead of
clamping; and a tick only succeeds when all three preconditions
(`days_remaining > 0`, `daily_funding ≥ 0`, `buying_power ≥ daily_funding`)
hold, in which case it yields `funding_today`. -/
theorem scheduler_tick_preconditions (equity cash buying_power target_ratio : ℚ)
    (days_until_finished : ℤ) (days_since_last_funding : Option ℤ) :
    (days_until_finished ≤ 0 →
      (scheduler_tick equity cash buying_power target_ratio
          days_until_finished days_since_last_funding).isOk = false) ∧
    (∀ f, scheduler_tick equity cash buying_power target_ratio
          days_until_finished days_since_last_funding = Except.ok f →
        0 < days_until_finished ∧
        0 ≤ daily_funding equity cash target_ratio days_until_finished ∧
        daily_funding equity cash target_ratio days_until_finished ≤
          buying_power ∧
        f = funding_today equity cash target_ratio days_until_finished
          days_since_last_funding) := by
  constructor
  · intro hle
    rw [scheduler_tick]
    rw [if_neg (by omega)]
    rfl
  · intro f hok
    rw [scheduler_tick] at hok
    by_cases h1 : 0 < days_until_finished
    · rw [if_pos h1] at hok
      by_cases h2 : 0 ≤ daily_funding equity cash target_ratio days_until_finished
      · rw [if_pos h2] at hok
        by_cases h3 : daily_funding equity cash target_ratio days_until_finished ≤
            buying_power
        · rw [if_pos h3] at hok
          exact ⟨h1, h2, h3, (Except.ok.inj hok).symm⟩
        · rw [if_neg h3] at hok
          exact absurd hok (by simp)
      · rw [if_neg h2] at hok
        exact absurd hok (by simp)
    · rw [if_neg h1] at hok
      exact absurd hok (by simp)

/-- Witness for C6: at the finish date (0 whole days remaining) the tick
is rejected. -/
theorem scheduler_tick_preconditions_witness :
    (scheduler_tick 1000 1000 2000 1 0 none).isOk = false :=
  (scheduler_tick_preconditions 1000 1000 2000 1 0 none).1 (by norm_num)

/-- One entry of the position snapshot (src/main.rs:290-307): symbol,
live market value, current price. -/
structure Position where
  symbol : String
  market_value : ℚ
  current_price : ℚ

/-- Embeds the `virtual_equities` computation of the funding cycle
(src/main.rs:292-304): for each position, the live market value MINUS the
persisted `ideal_allocations` entry for its symbol (0 when absent). -/
def virtual_equities (pos : List Position)
    (ideal_allocations : String → Option ℚ) : List ℚ :=
  pos.map (fun p => p.market_value - ((ideal_allocations p.symbol).getD 0))

/-- The price vector of the cycle (src/main.rs:305-307). -/
def cycle_prices (pos : List Position) : List ℚ :=
  pos.map (fun p => p.current_price)

/-- The ideal-fraction vector of the cycle (src/main.rs:309-318). -/
def cycle_ideals (pos : List Position)
    (ideal_allocations : String → Option ℚ) : List ℚ :=
  pos.map (fun p => (ideal_allocations p.symbol).getD 0)

/-- The planner call of the funding cycle (src/main.rs:321-326):
`generate_orders` receives `virtual_equities`, the live prices, the
persisted ideal allocations, and today's funding as budget. -/
def plan_funding_cycle (pos : List Position)
    (ideal_allocations : String → Option ℚ) (funding : ℚ) (fuel : ℕ) :
    Option (List (ℕ × ℚ) × List ℚ) :=
  generate_orders (virtual_equities pos ideal_allocations)
    (cycle_prices pos) (cycle_ideals pos ideal_allocations) funding fuel

/-- Concrete one-position snapshot used at C5. -/
def cex_positions : List Position :=
  [{ symbol := "A", market_value := 100, current_price := 10 }]

/-- Concrete persisted ideal allocation used at C5. -/
def cex_alloc : String → Option ℚ :=
  fun s => if s = "A" then some (1/2) else none

/-- C5 counterexample: a position with market value `100` and persisted
ideal allocation `1/2` is handed to the planner with equity
`100 - 1/2 = 199/2`, not its live market value `100`. -/
theorem virtual_equities_cex :
    virtual_equities cex_positions cex_alloc = [199/2] ∧
    ((199 : ℚ)/2) ≠ 100 := by
  constructor
  · norm_num [virtual_equities, cex_positions, cex_alloc]
  · norm_num

/-- C5 amended: the equity supplied to the planner for each position is
its live market value minus the persisted ideal-allocation entry for its
symbol (0 when the symbol is absent). -/
theorem virtual_equities_spec (pos : List Position)
    (ideal_allocations : String → Option ℚ) (i : ℕ) (hi : i < pos.length) :
    (virtual_equities pos ideal_allocations).length = pos.length ∧
    (virtual_equities pos ideal_allocations).getD i 0 =
      (pos.get ⟨i, hi⟩).market_value -
        ((ideal_allocations (pos.get ⟨i, hi⟩).symbol).getD 0) := by
  constructor
  · simp [virtual_equities]
  · simp [virtual_equities, List.getD_eq_getElem?_getD, List.getElem?_map,
      List.getElem?_eq_getElem, hi, List.get_eq_getElem]

/-- Witness for the amended C5 on the concrete snapshot. -/
theorem virtual_equities_spec_witness :
    (virtual_equities cex_positions cex_alloc).length = cex_positions.length ∧
    (virtual_equities cex_positions cex_alloc).getD 0 0 =
      (cex_positions.get ⟨0, by norm_num [cex_positions]⟩).market_value -
        ((cex_alloc
          (cex_positions.get ⟨0, by norm_num [cex_positions]⟩).symbol).getD 0) :=
  virtual_equities_spec cex_positions cex_alloc 0 (by norm_num [cex_positions])

/-- Embeds the persisted `State` record (src/main.rs:155-161); timestamps
are abstracted as integers, the `HashMap`s as association lists. -/
structure State where
  last_funding_date : Option ℤ
  reference_equities : List (String × ℚ)
  ideal_allocations : List (String × ℚ)
  target_investment_equity_ratio : ℚ
  finish_date : ℤ

/-- Embeds the order-submission loop of the cycle (src/main.rs:328-333):
orders are submitted in sequence; a failing submission aborts the cycle
(`?` propagates the error). -/
def submit_all (submit : ℕ × ℚ → Except String Unit) :
    List (ℕ × ℚ) → Except String Unit
  | [] => Except.ok ()
  | o :: rest =>
      match submit o with
      | Except.ok _ => submit_all submit rest
      | Except.error e => Except.error e

/-- Embeds the tail of a funding cycle (src/main.rs:328-336): submit every
order; only if all submissions succeed, set `last_funding_date` to the
current timestamp (the sole state mutation) and yield the state to be
persisted. -/
def run_funding_cycle (submit : ℕ × ℚ → Except String Unit)
    (orders : List (ℕ × ℚ)) (st : State) (now : ℤ) : Except String State :=
  match submit_all submit orders with
  | Except.error e => Except.error e
  | Except.ok _ => Except.ok { st with last_funding_date := some now }

/-- If the submission loop succeeds, every order was submitted
successfully. -/
theorem submit_all_ok {submit : ℕ × ℚ → Except String Unit}
    {u : Unit} :
    ∀ {orders : List (ℕ × ℚ)}, submit_all submit orders = Except.ok u →
      ∀ o ∈ orders, submit o = Except.ok () := by
  intro orders
  induction orders with
  | nil => intro _ o ho; simp at ho
  | cons a rest ih =>
      intro h o ho
      rw [submit_all] at h
      cases hs : submit a with
      | ok v =>
          rw [hs] at h
          rcases List.mem_cons.mp ho with rfl | ho2
          · cases v; exact hs
          · exact ih h o ho2
      | error e => rw [hs] at h; exact absurd h (by simp)

/-- C9: a funding cycle that commits leaves `reference_equities`,
`ideal_allocations`, `target_investment_equity_ratio` and `finish_date`
unchanged, mutates only `last_funding_date` (to the current timestamp),
and commits only when every order in the plan was submitted
successfully. -/
theorem run_funding_cycle_frame (submit : ℕ × ℚ → Except String Unit)
    (orders : List (ℕ × ℚ)) (st : State) (now : ℤ) (st2 : State)
    (h : run_funding_cycle submit orders st now = Except.ok st2) :
    st2.reference_equities = st.reference_equities ∧
    st2.ideal_allocations = st.ideal_allocations ∧
    st2.target_investment_equity_ratio = st.target_investment_equity_ratio ∧
    st2.finish_date = st.finish_date ∧
    st2.last_funding_date = some now ∧
    ∀ o ∈ orders, submit o = Except.ok () := by
  rw [run_funding_cycle] at h
  cases hs : submit_all submit orders with
  | error e => rw [hs] at h; exact absurd h (by simp)
  | ok u =>
      rw [hs] at h
      have h2 := Except.ok.inj h
      subst h2
      exact ⟨rfl, rfl, rfl, rfl, rfl, submit_all_ok hs⟩

/-- Concrete checkpoint used at C9. -/
def cex_state : State :=
  { last_funding_date := none, reference_equities := [("A", 100)],
    ideal_allocations := [("A", 1)], target_investment_equity_ratio := 1,
    finish_date := 365 }

/-- Witness for C9: an always-succeeding submitter over one order. -/
theorem run_funding_cycle_frame_witness :
    ({ cex_state with last_funding_date := some 5 } : State).reference_equities =
      cex_state.reference_equities ∧
    ({ cex_state with last_funding_date := some 5 } : State).ideal_allocations =
      cex_state.ideal_allocations ∧
    ({ cex_state with last_funding_date := some 5 } :
        State).target_investment_equity_ratio =
      cex_state.target_investment_equity_ratio ∧
    ({ cex_state with last_funding_date := some 5 } : State).finish_date =
      cex_state.finish_date ∧
    ({ cex_state with last_funding_date := some 5 } : State).last_funding_date =
      some 5 ∧
    ∀ o ∈ ([(0, 1)] : List (ℕ × ℚ)),
      (fun _ : ℕ × ℚ => (Except.ok () : Except String Unit)) o = Except.ok () :=
  run_funding_cycle_frame (fun _ => Except.ok ()) [(0, 1)] cex_state 5
    { cex_state with last_funding_date := some 5 } rfl
